import Mathlib

/-!
Verification of `packages/gatsby-typegen-remark/src/gatsby-node.js`.

The file shallowly embeds the caching and pipeline logic of the plugin:

* `PState` models the mutable state relevant to the caches: the module-level
  `astPromiseCache` (line 25), the per-`extendNodeType`-invocation
  `htmlPromisesCache` maps (line 147, one per invocation because the
  declaration is inside the function body), a fresh-promise counter, the queue
  of not-yet-executed asynchronous pipeline continuations, and the log of
  `remark.parse` executions.
* `getAST` models the synchronous body of the source's `getAST`
  (lines 53-131): JavaScript is single threaded and the function body contains
  no `await` before the cache entry is stored and returned, so the whole
  check-allocate-store sequence is one atomic step; the asynchronous
  continuation (which performs `remark.parse`) is queued and executed later by
  a separate scheduler step (`runPipelineTask`), in any order.
* `astPipeline` models the computation performed inside the promise allocated
  by `getAST` (lines 57-127): the mutate-source phase, the single
  `remark.parse` call, and the plugin (type-generation) phase, together with
  the settlement of the outer promise.  The executor never invokes `reject`
  and no rejection handler is attached to either `Promise.all` chain, so a
  failure in either phase leaves the outer promise unsettled forever.
* Field resolvers `excerpt`, `headings` and `timeToRead` are modelled over a
  markdown syntax tree `MdNode`.  External dependencies (`remark`'s parser,
  `sanitize-html`, lodash `words`, `underscore.string/prune`) are not part of
  the repository; the parser is kept as a parameter, the sanitizer and word
  splitter are modelled from the spec's description, and `prune` is modelled
  from the library's documented word-boundary template algorithm.

Strings from the JavaScript side are modelled as `List Char`; object maps
keyed by node ids are association lists with first-match lookup (an
assignment conses a binding, deletion removes every binding for the key).
-/

/-! ## Definitions: the embedded data model and operations -/

/-- Lookup in a JavaScript-object-like association list (first match wins,
matching the most recent assignment). -/
def lookupKey (l : List (Nat × Nat)) (k : Nat) : Option Nat :=
  match l.find? (fun p => p.1 == k) with
  | some p => some p.2
  | none => none

/-- Model of `delete obj[k]`: every binding for `k` is removed. -/
def eraseKey (l : List (Nat × Nat)) (k : Nat) : List (Nat × Nat) :=
  l.filter fun p => p.1 != k

/-- The `node` argument of `onNodeCreate` (only the fields the function
reads: `node.id` and `node.type`). -/
structure NodeArg where
  id : Nat
  type : String
deriving DecidableEq, Repr

/-- Cache-relevant mutable state of the module.  `astPromiseCache` is the
module-level map of line 25; `htmlPromisesCaches` holds one
`htmlPromisesCache` per `extendNodeType` invocation, because the source
declares that map inside the function body (line 147); `nextProm` allocates
promise identities; `pendingParseTasks` is the queue of allocated but not yet
executed pipeline continuations `(node id, promise id)`; `parseRuns` logs, in
execution order, the node id of every `remark.parse` call (line 74). -/
structure PState where
  astPromiseCache : List (Nat × Nat)
  htmlPromisesCaches : List (List (Nat × Nat))
  nextProm : Nat
  pendingParseTasks : List (Nat × Nat)
  parseRuns : List Nat
deriving DecidableEq, Repr

/-- The initial (module just loaded) state: both caches empty. -/
def pinit : PState := ⟨[], [], 0, [], []⟩

/-- Model of `exports.onNodeCreate` (lines 29-33): when the created node is a
`MarkdownRemark` node, delete the AST cache entry for its id; otherwise do
nothing.  The HTML caches, the task queue and the parse log are untouched. -/
def onNodeCreate (node : NodeArg) (s : PState) : PState :=
  if node.type = "MarkdownRemark" then
    { s with astPromiseCache := eraseKey s.astPromiseCache node.id }
  else s

/-- Model of the synchronous body of `getAST` (lines 53-131) for a node with
id `id`.  Returns the new state, the promise handle handed to the caller, and
whether the handle came from the cache.  On a miss the fresh handle is stored
in `astPromiseCache` and the asynchronous pipeline continuation is queued
before the call returns: in JavaScript the executor runs synchronously and
the parse happens inside a `.then` continuation, so no asynchronous work can
run before the store. -/
def getAST (s : PState) (id : Nat) : PState × Nat × Bool :=
  match lookupKey s.astPromiseCache id with
  | some p => (s, p, true)
  | none =>
    ({ s with
        astPromiseCache := (id, s.nextProm) :: s.astPromiseCache,
        nextProm := s.nextProm + 1,
        pendingParseTasks := s.pendingParseTasks ++ [(id, s.nextProm)] },
     s.nextProm, false)

/-- Remove the first occurrence of a completed task from the queue. -/
def removeTask : List (Nat × Nat) → (Nat × Nat) → List (Nat × Nat)
  | [], _ => []
  | a :: l, t => if a = t then l else a :: removeTask l t

/-- The event-loop executing the queued pipeline continuation `t = (id, p)`:
the task is removed from the queue and `remark.parse` runs once for `id`.
A task not in the queue (already executed) does nothing: a promise's `.then`
continuation runs at most once. -/
def runPipelineTask (s : PState) (t : Nat × Nat) : PState :=
  if t ∈ s.pendingParseTasks then
    { s with
        pendingParseTasks := removeTask s.pendingParseTasks t,
        parseRuns := s.parseRuns ++ [t.1] }
  else s

/-- Model of one `extendNodeType` invocation reaching line 147: a fresh empty
`htmlPromisesCache` is created for this invocation.  Returns the invocation's
index. -/
def extendNodeTypeInvoke (s : PState) : PState × Nat :=
  ({ s with htmlPromisesCaches := s.htmlPromisesCaches ++ [[]] },
   s.htmlPromisesCaches.length)

/-- Model of the synchronous body of `getHTML` (lines 148-163) performed by
invocation `inv` for node `id`: the lookup and store use only that
invocation's `htmlPromisesCache`.  Returns state, promise handle, and whether
the handle was cached. -/
def getHTMLCall (s : PState) (inv id : Nat) : PState × Nat × Bool :=
  match lookupKey (s.htmlPromisesCaches.getD inv []) id with
  | some p => (s, p, true)
  | none =>
    ({ s with
        htmlPromisesCaches :=
          s.htmlPromisesCaches.set inv ((id, s.nextProm) :: s.htmlPromisesCaches.getD inv []),
        nextProm := s.nextProm + 1 },
     s.nextProm, false)

/-- Events interleaved by the single-threaded runtime: a synchronous `getAST`
call, the event loop running one queued pipeline continuation, and the host
calling `onNodeCreate` for a created node. -/
inductive CacheEv where
  | callGetAST : Nat → CacheEv
  | runTask : Nat × Nat → CacheEv
  | nodeCreated : NodeArg → CacheEv
deriving DecidableEq, Repr

/-- One interleaving step. -/
def stepEv (s : PState) (e : CacheEv) : PState :=
  match e with
  | .callGetAST id => (getAST s id).1
  | .runTask t => runPipelineTask s t
  | .nodeCreated n => onNodeCreate n s

/-- Run a whole schedule of events. -/
def runEvs (s : PState) (tr : List CacheEv) : PState := tr.foldl stepEv s

/-- Does the event end the cache epoch of `id` (an `onNodeCreate` for a
`MarkdownRemark` node with that id)? -/
def invalidatesId (e : CacheEv) (id : Nat) : Bool :=
  match e with
  | .nodeCreated n => n.type == "MarkdownRemark" && n.id == id
  | _ => false

/-- Number of queued (not yet executed) pipeline tasks for `id`. -/
def tasksFor (s : PState) (id : Nat) : Nat :=
  s.pendingParseTasks.countP fun t => t.1 == id

/-- Number of `remark.parse` executions performed for `id` so far. -/
def parsesFor (s : PState) (id : Nat) : Nat :=
  s.parseRuns.count id

/-- Two `extendNodeType` invocations have happened (each creating its own
fresh `htmlPromisesCache`). -/
def twoInvState : PState := (extendNodeTypeInvoke (extendNodeTypeInvoke pinit).1).1

/-- State after invocation 0 populated its HTML promises cache for id 7. -/
def twoInvAfterHTML : PState := (getHTMLCall twoInvState 0 7).1

/-- Invariant of one cache epoch for `id`: an absent cache entry means no
pipeline task or parse ever happened for `id`, and in total at most one
pipeline continuation was ever allocated. -/
def epochInv (id : Nat) (s : PState) : Prop :=
  (lookupKey s.astPromiseCache id = none → tasksFor s id = 0 ∧ parsesFor s id = 0) ∧
  tasksFor s id + parsesFor s id ≤ 1

mutual

/-- A unist/mdast node as used by the source: a `type` tag, a `depth` (only
meaningful on `heading` nodes), a `value` (only meaningful on `text` nodes)
and children. -/
inductive MdNode where
  | mk : String → Nat → List Char → MdForest → MdNode

/-- The list of children of an `MdNode` (a separate inductive so that all
traversals are structurally recursive). -/
inductive MdForest where
  | nil : MdForest
  | cons : MdNode → MdForest → MdForest
end

/-- The `type` field of a node. -/
def MdNode.ty : MdNode → String
  | .mk t _ _ _ => t

/-- The `depth` field of a node (headings). -/
def MdNode.depth : MdNode → Nat
  | .mk _ d _ _ => d

/-- The `value` field of a node (text nodes). -/
def MdNode.value : MdNode → List Char
  | .mk _ _ v _ => v

mutual

/-- Model of `select(ast, type)` / `visit(ast, type, ...)` from
`unist-util-select` and `unist-util-visit`: every node of the given type, in
preorder document order (the node itself before its children). -/
def selectNode (t : String) : MdNode → List MdNode
  | .mk ty d v cs =>
    (if ty = t then [MdNode.mk ty d v cs] else []) ++ selectForest t cs

/-- Preorder collection over a forest. -/
def selectForest (t : String) : MdForest → List MdNode
  | .nil => []
  | .cons n f => selectNode t n ++ selectForest t f
end

/-- A stand-in markdown parser used to instantiate witnesses; the real
`remark` parser is external to the repository, so all pipeline theorems are
parametric in the parse function. -/
def parseStub (src : List Char) : MdNode :=
  MdNode.mk "root" 0 src MdForest.nil

/-- A configured transformer plugin as the source observes it after
`require(plugin.resolve)`: `mutateSource` models the optional
`requiredPlugin.mutateSource` capability (line 61, a function mutating the
markdown node's raw source), `pluginFn` models the module itself being
callable (line 109, the typegen capability, mutating the markdown AST).
Either capability may reject, modelled by `Except`.  The concurrent dispatch
of a phase is modelled by applying each capability atomically in configured
(dispatch) order. -/
structure RemarkPlugin where
  mutateSource : Option (List Char → Except (List Char) (List Char))
  pluginFn : Option (MdNode → Except (List Char) MdNode)

/-- The markdown content record as the pipeline mutates it: id, raw source
(`markdownNode.src`), and the attached syntax tree (`markdownNode.ast`,
absent until line 123 runs). -/
structure MarkdownNode where
  id : Nat
  src : List Char
  ast : Option MdNode

/-- How the promise allocated by `getAST` ends up: resolved with the record,
rejected with an error, or never settled at all. -/
inductive Settlement (α : Type) where
  | resolved : α → Settlement α
  | rejected : List Char → Settlement α
  | unsettled : Settlement α

/-- Is the settlement a rejection (a delivered failure)? -/
def Settlement.isRejected {α : Type} : Settlement α → Bool
  | .rejected _ => true
  | _ => false

/-- Has the promise settled at all? -/
def Settlement.isSettled {α : Type} : Settlement α → Bool
  | .unsettled => false
  | _ => true

/-- Phase 1 (lines 58-72): every plugin exposing `mutateSource` is invoked on
the raw source; plugins without the capability are skipped
(`Promise.resolve()`).  `Promise.all` fails when any call fails. -/
def mutatePhase (plugins : List RemarkPlugin) (src : List Char) :
    Except (List Char) (List Char) :=
  plugins.foldl
    (fun acc p =>
      acc.bind fun s =>
        match p.mutateSource with
        | some f => f s
        | none => Except.ok s)
    (Except.ok src)

/-- Phase 2 (lines 106-121): every plugin whose module is itself a function
is invoked on the parsed AST; others are skipped (`Promise.resolve()`). -/
def pluginPhase (plugins : List RemarkPlugin) (ast : MdNode) :
    Except (List Char) MdNode :=
  plugins.foldl
    (fun acc p =>
      acc.bind fun a =>
        match p.pluginFn with
        | some f => f a
        | none => Except.ok a)
    (Except.ok ast)

/-- Observable pipeline events: a plugin's mutate-source call being
dispatched, the single `remark.parse` call (line 74), and a plugin's typegen
call being dispatched. -/
inductive PipeEv where
  | mutateCall : Nat → PipeEv
  | parseCall : PipeEv
  | pluginCall : Nat → PipeEv
deriving DecidableEq, Repr

/-- The mutate-source dispatches of phase 1, in configured order: one per
plugin exposing the capability (all of them are dispatched by the `map` on
line 59 regardless of later failures). -/
def mutateEvents (plugins : List RemarkPlugin) : List PipeEv :=
  ((plugins.enum).filter (fun p => p.2.mutateSource.isSome)).map
    (fun p => PipeEv.mutateCall p.1)

/-- The typegen dispatches of phase 2, in configured order. -/
def pluginEvents (plugins : List RemarkPlugin) : List PipeEv :=
  ((plugins.enum).filter (fun p => p.2.pluginFn.isSome)).map
    (fun p => PipeEv.pluginCall p.1)

/-- The computation performed by the promise allocated in `getAST`
(lines 57-127), together with the trace of pipeline events.  The executor
calls `resolve(markdownNode)` only after both phases succeed (line 124) and
never calls `reject`; neither `Promise.all(...).then(...)` chain has a
rejection handler, so when either phase fails the rejection is dropped and
the outer promise never settles.  On failure after phase 1 the parse has not
run (the first `.then` is skipped), so no parse event is emitted. -/
def astPipeline (parse : List Char → MdNode) (plugins : List RemarkPlugin)
    (markdownNode : MarkdownNode) : Settlement MarkdownNode × List PipeEv :=
  match mutatePhase plugins markdownNode.src with
  | .error _ => (Settlement.unsettled, mutateEvents plugins)
  | .ok src1 =>
    match pluginPhase plugins (parse src1) with
    | .error _ =>
      (Settlement.unsettled,
       mutateEvents plugins ++ [PipeEv.parseCall] ++ pluginEvents plugins)
    | .ok ast1 =>
      (Settlement.resolved { markdownNode with src := src1, ast := some ast1 },
       mutateEvents plugins ++ [PipeEv.parseCall] ++ pluginEvents plugins)

/-- Is the `Except` a success? -/
def isOkE {ε α : Type} : Except ε α → Bool
  | .ok _ => true
  | .error _ => false

/-- A plugin whose `mutateSource` call always rejects. -/
def failPlugin : RemarkPlugin := ⟨some (fun _ => Except.error ['b', 'a', 'd']), none⟩

/-- A plugin whose typegen call always rejects. -/
def typegenFailPlugin : RemarkPlugin := ⟨none, some (fun _ => Except.error ['e'])⟩

/-- The GraphQL `MarkdownHeading` shape (lines 165-181): the heading's first
contained text value (absent when the heading has no text descendant, as
`_.first` of an empty list is `undefined`) and its depth. -/
structure MarkdownHeading where
  value : Option (List Char)
  depth : Nat
deriving DecidableEq, Repr

/-- Model of `getHeadings` (lines 133-145): one entry per `heading` node of
the tree in document order; the value is the first `text` descendant's value
(`_.first(select(heading, 'text').map(text => text.value))`). -/
def getHeadings (ast : MdNode) : List MarkdownHeading :=
  (selectNode "heading" ast).map fun h =>
    { value := ((selectNode "text" h).map MdNode.value).head?, depth := h.depth }

/-- Model of the `headings` resolver (lines 228-236): when the `depth`
argument is a number, filter to headings of exactly that depth. -/
def headingsResolve (ast : MdNode) (depth : Option Nat) : List MarkdownHeading :=
  match depth with
  | some d => (getHeadings ast).filter fun h => h.depth == d
  | none => getHeadings ast

/-- A concrete document with headings at depths 1, 2, 2, 3, each heading
holding one text child. -/
def depthsDoc : MdNode :=
  MdNode.mk "root" 0 []
    (MdForest.cons (MdNode.mk "heading" 1 []
        (MdForest.cons (MdNode.mk "text" 0 ['A'] MdForest.nil) MdForest.nil))
      (MdForest.cons (MdNode.mk "heading" 2 []
          (MdForest.cons (MdNode.mk "text" 0 ['B'] MdForest.nil) MdForest.nil))
        (MdForest.cons (MdNode.mk "heading" 2 []
            (MdForest.cons (MdNode.mk "text" 0 ['C'] MdForest.nil) MdForest.nil))
          (MdForest.cons (MdNode.mk "heading" 3 []
              (MdForest.cons (MdNode.mk "text" 0 ['D'] MdForest.nil) MdForest.nil))
            MdForest.nil))))

/-- State machine of the tag stripper: outside or inside a `<...>` tag;
characters inside a tag are dropped, and so are the delimiters. -/
def stripTagsGo : Bool → List Char → List Char
  | _, [] => []
  | false, c :: rest =>
    if c = '<' then stripTagsGo true rest else c :: stripTagsGo false rest
  | true, c :: rest =>
    if c = '>' then stripTagsGo false rest else stripTagsGo true rest

/-- Modelled from the spec: the external `sanitize-html` call with
`allowTags: []` (line 243) strips all markup, letting no tags through; the
model removes every `<...>` tag region from the rendered HTML. -/
def stripTags (html : List Char) : List Char := stripTagsGo false html

/-- Accumulator-based word scanner: maximal alphanumeric runs. -/
def wordsGo : List Char → List Char → List (List Char)
  | acc, [] => if acc.isEmpty then [] else [acc.reverse]
  | acc, c :: rest =>
    if c.isAlphanum then wordsGo (c :: acc) rest
    else if acc.isEmpty then wordsGo [] rest
    else acc.reverse :: wordsGo [] rest

/-- Modelled from the spec: the external lodash `_.words` call (line 245), a
locale-aware word-splitting heuristic, modelled over ASCII as the list of
maximal alphanumeric runs. -/
def wordsOf (s : List Char) : List (List Char) := wordsGo [] s

/-- Model of the `timeToRead` resolver (lines 238-253): strip the rendered
HTML, count words, compute `Math.round(wordCount / 265)` — which for natural
`wordCount` equals `(2 * wordCount + 265) / 530` in natural division, as the
C5 theorem proves — and replace a result of 0 by 1. -/
def timeToRead (html : List Char) : Nat :=
  let pureText := stripTags html
  let wordCount := (wordsOf pureText).length
  let t := (2 * wordCount + 265) / 530
  if t = 0 then 1 else t

/-- The regex class `\w` over ASCII (letters, digits, underscore). -/
def isWChar (c : Char) : Bool := c.isAlphanum || c == '_'

/-- A character with distinct upper and lower case, over ASCII: the
library's `c.toUpperCase() !== c.toLowerCase()` test. -/
def isCasedLetter (c : Char) : Bool := c.isAlpha

/-- The regex class `\s` over ASCII. -/
def isSpaceJS (c : Char) : Bool :=
  c == ' ' || c == '\t' || c == '\n' || c == '\r' || c == '\x0b' || c == '\x0c'

/-- The library's template map: a cased letter becomes `A`, anything else a
space. -/
def tmplChar (c : Char) : Char := if isCasedLetter c then 'A' else ' '

/-- Length of the trailing `\w`-run of the string. -/
def wSuffixLen (l : List Char) : Nat := (l.reverse.takeWhile isWChar).length

/-- Length of the non-`\w` run preceding the trailing `\w`-run. -/
def nwMidLen (l : List Char) : Nat :=
  ((l.reverse.drop (wSuffixLen l)).takeWhile (fun c => !(isWChar c))).length

/-- Number of characters the template replacement leaves untouched: the
regex `.(?=\W*\w*$)` replaces exactly the characters whose suffix lies in
`\W*\w*`, i.e. the maximal such suffix plus one character before it. -/
def pruneKeep (l : List Char) : Nat := l.length - (wSuffixLen l + nwMidLen l + 1)

/-- The library's `str.slice(0, length + 1).replace(/.(?=\W*\w*$)/g, tmpl)`
applied to an already-sliced string. -/
def pruneTemplate (l : List Char) : List Char :=
  l.take (pruneKeep l) ++ (l.drop (pruneKeep l)).map tmplChar

/-- The library's `template.slice(template.length - 2).match(/\w\w/)`: both
of the last two characters are word characters. -/
def lastTwoAreW (l : List Char) : Bool :=
  match l.reverse with
  | c1 :: c2 :: _ => isWChar c1 && isWChar c2
  | _ => false

/-- The library's `rtrim`: remove trailing whitespace. -/
def rtrimJS (l : List Char) : List Char := (l.reverse.dropWhile isSpaceJS).reverse

/-- The library's `template.replace(/\s*\S+$/, '')`: when the string ends in
a non-space character, remove the trailing non-space run and the spaces
before it; otherwise the regex does not match and nothing changes. -/
def dropTrailingWordRun (l : List Char) : List Char :=
  match l.reverse with
  | [] => l
  | c :: _ =>
    if isSpaceJS c then l
    else ((l.reverse.dropWhile (fun c => !(isSpaceJS c))).dropWhile isSpaceJS).reverse

/-- The final template of the prune algorithm: trailing-word removal when
the template ends in two word characters, otherwise drop the last character
and right-trim. -/
def pruneTmpl (str : List Char) (len : Nat) : List Char :=
  if lastTwoAreW (pruneTemplate (str.take (len + 1))) then
    dropTrailingWordRun (pruneTemplate (str.take (len + 1)))
  else rtrimJS (pruneTemplate (str.take (len + 1))).dropLast

/-- Modelled from the external dependency `underscore.string/prune`
(required on line 23 and applied on line 217), over ASCII: a string that fits
is returned unchanged; otherwise the template decides a cut, `...` is
appended, and if that would not shorten the string the original is returned
whole. -/
def usPrune (str : List Char) (len : Nat) : List Char :=
  if str.length ≤ len then str
  else if str.length < (pruneTmpl str len).length + 3 then str
  else str.take (pruneTmpl str len).length ++ ['.', '.', '.']

/-- Text values of all `text` nodes in document order: the `visit` collection
of the `excerpt` resolver (lines 215-216). -/
def visitTextValues (ast : MdNode) : List (List Char) :=
  (selectNode "text" ast).map MdNode.value

/-- The resolver's `textNodes.join(' ')` (line 217). -/
def joinSp (xs : List (List Char)) : List Char := List.intercalate [' '] xs

/-- Model of the `excerpt` resolver (lines 213-219): collect the plain-text
leaves in document order, join with single spaces, and prune to the requested
length (default 140 supplied by the schema). -/
def excerptResolve (ast : MdNode) (pruneLength : Nat) : List Char :=
  usPrune (joinSp (visitTextValues ast)) pruneLength

/-- A document whose only text leaf is the single five-character word
`ab1cd` (letters and a digit, no separator). -/
def digitWordDoc : MdNode :=
  MdNode.mk "root" 0 []
    (MdForest.cons (MdNode.mk "text" 0 ['a', 'b', '1', 'c', 'd'] MdForest.nil) MdForest.nil)

/-- A document with two short text leaves, `Hi` and `you`. -/
def shortDoc : MdNode :=
  MdNode.mk "root" 0 []
    (MdForest.cons (MdNode.mk "text" 0 ['H', 'i'] MdForest.nil)
      (MdForest.cons (MdNode.mk "text" 0 ['y', 'o', 'u'] MdForest.nil) MdForest.nil))

/-! ## Lemmas and claim theorems -/

/-! ### Association-list lemmas -/

theorem lookupKey_cons (a : Nat × Nat) (id : Nat) (l : List (Nat × Nat)) :
    lookupKey (a :: l) id = if a.1 = id then some a.2 else lookupKey l id := by
  by_cases h : a.1 = id
  · rw [lookupKey, List.find?_cons_of_pos _ (by simpa using h), if_pos h]
  · rw [lookupKey, List.find?_cons_of_neg _ (by simpa using h), if_neg h]
    rfl

theorem eraseKey_cons (a : Nat × Nat) (k : Nat) (l : List (Nat × Nat)) :
    eraseKey (a :: l) k = if a.1 = k then eraseKey l k else a :: eraseKey l k := by
  rw [eraseKey, List.filter_cons]
  by_cases h : a.1 = k
  · rw [if_pos h]
    simp [h, eraseKey]
  · have hb : (a.1 != k) = true := by simpa using h
    rw [hb, if_neg h]
    simp [eraseKey]

theorem lookupKey_eraseKey_self (l : List (Nat × Nat)) (k : Nat) :
    lookupKey (eraseKey l k) k = none := by
  induction l with
  | nil => rfl
  | cons a t ih =>
    rw [eraseKey_cons]
    by_cases hk : a.1 = k
    · rw [if_pos hk]; exact ih
    · rw [if_neg hk, lookupKey_cons, if_neg hk]; exact ih

theorem eraseKey_eraseKey (l : List (Nat × Nat)) (k : Nat) :
    eraseKey (eraseKey l k) k = eraseKey l k := by
  simp [eraseKey, List.filter_filter]

theorem eraseKey_of_lookup_none (l : List (Nat × Nat)) (k : Nat)
    (h : lookupKey l k = none) : eraseKey l k = l := by
  induction l with
  | nil => rfl
  | cons a t ih =>
    rw [lookupKey_cons] at h
    by_cases hk : a.1 = k
    · rw [if_pos hk] at h; cases h
    · rw [if_neg hk] at h
      rw [eraseKey_cons, if_neg hk, ih h]

theorem lookupKey_eraseKey_ne (l : List (Nat × Nat)) (k id : Nat) (h : k ≠ id) :
    lookupKey (eraseKey l k) id = lookupKey l id := by
  induction l with
  | nil => rfl
  | cons a t ih =>
    rw [eraseKey_cons]
    by_cases hk : a.1 = k
    · rw [if_pos hk, lookupKey_cons, if_neg (by rw [hk]; exact h)]
      exact ih
    · rw [if_neg hk, lookupKey_cons, lookupKey_cons]
      by_cases hid : a.1 = id
      · rw [if_pos hid, if_pos hid]
      · rw [if_neg hid, if_neg hid]; exact ih

/-! ### C4, C10: the invalidation hook -/

/-- C4: invoking `onNodeCreate` for a `MarkdownRemark` record deletes the AST
cache entry for that record's id, is idempotent (and a no-op when no entry
exists), and leaves every invocation's HTML promises cache unchanged. -/
theorem onNodeCreate_invalidates_ast_cache (node : NodeArg) (s : PState)
    (h : node.type = "MarkdownRemark") :
    lookupKey (onNodeCreate node s).astPromiseCache node.id = none ∧
    onNodeCreate node (onNodeCreate node s) = onNodeCreate node s ∧
    (lookupKey s.astPromiseCache node.id = none → onNodeCreate node s = s) ∧
    (onNodeCreate node s).htmlPromisesCaches = s.htmlPromisesCaches := by
  refine ⟨?_, ?_, ?_, ?_⟩
  · simp [onNodeCreate, h, lookupKey_eraseKey_self]
  · simp [onNodeCreate, h, eraseKey_eraseKey]
  · intro hnone
    simp [onNodeCreate, h, eraseKey_of_lookup_none _ _ hnone]
  · simp [onNodeCreate, h]

/-- Witness for C4 at a concrete state holding an AST and an HTML entry for
id 3. -/
theorem onNodeCreate_invalidates_ast_cache_witness :
    lookupKey (onNodeCreate ⟨3, "MarkdownRemark"⟩ ⟨[(3, 0)], [[(3, 5)]], 1, [], []⟩).astPromiseCache 3 = none ∧
    onNodeCreate ⟨3, "MarkdownRemark"⟩ (onNodeCreate ⟨3, "MarkdownRemark"⟩ ⟨[(3, 0)], [[(3, 5)]], 1, [], []⟩) =
      onNodeCreate ⟨3, "MarkdownRemark"⟩ ⟨[(3, 0)], [[(3, 5)]], 1, [], []⟩ ∧
    (lookupKey ([(3, 0)] : List (Nat × Nat)) 3 = none →
      onNodeCreate ⟨3, "MarkdownRemark"⟩ ⟨[(3, 0)], [[(3, 5)]], 1, [], []⟩ = ⟨[(3, 0)], [[(3, 5)]], 1, [], []⟩) ∧
    (onNodeCreate ⟨3, "MarkdownRemark"⟩ ⟨[(3, 0)], [[(3, 5)]], 1, [], []⟩).htmlPromisesCaches = [[(3, 5)]] :=
  onNodeCreate_invalidates_ast_cache ⟨3, "MarkdownRemark"⟩ ⟨[(3, 0)], [[(3, 5)]], 1, [], []⟩ rfl

/-- C10: invoking `onNodeCreate` with a node whose type is not
`MarkdownRemark` leaves the AST cache (indeed the whole state) unchanged. -/
theorem onNodeCreate_other_type_noop (node : NodeArg) (s : PState)
    (h : node.type ≠ "MarkdownRemark") :
    (onNodeCreate node s).astPromiseCache = s.astPromiseCache ∧ onNodeCreate node s = s := by
  refine ⟨?_, ?_⟩ <;> simp [onNodeCreate, h]

/-- Witness for C10: a `File` node with an id that is present in the AST
cache; nothing is deleted. -/
theorem onNodeCreate_other_type_noop_witness :
    (onNodeCreate ⟨3, "File"⟩ ⟨[(3, 0)], [], 1, [], []⟩).astPromiseCache = [(3, 0)] ∧
    onNodeCreate ⟨3, "File"⟩ ⟨[(3, 0)], [], 1, [], []⟩ = ⟨[(3, 0)], [], 1, [], []⟩ :=
  onNodeCreate_other_type_noop ⟨3, "File"⟩ ⟨[(3, 0)], [], 1, [], []⟩ (by decide)

/-! ### C9: scoping of the two cache maps -/

/-- C9 counterexample: the HTML promises cache is NOT process-wide.  After
invocation 0 caches the HTML promise for id 7 (a repeat call by invocation 0
hits the cache), invocation 1 still misses on id 7 and starts a fresh
computation, so two invocations do not observe each other's HTML entries. -/
theorem htmlPromisesCache_not_shared_cex :
    (getHTMLCall twoInvAfterHTML 0 7).2.2 = true ∧
    lookupKey (twoInvAfterHTML.htmlPromisesCaches.getD 0 []) 7 = some 0 ∧
    (getHTMLCall twoInvAfterHTML 1 7).2.2 = false ∧
    lookupKey (twoInvAfterHTML.htmlPromisesCaches.getD 1 []) 7 = none := by
  decide

/-- C9 amended: the AST promise cache lives at module scope, so a second
`getAST` admission for the same id — from any invocation, the operation does
not depend on one — returns the first call's handle from the cache; the HTML
promises cache is created afresh inside each `extendNodeType` invocation, so
a `getHTMLCall` by one invocation leaves every other invocation's map
unchanged, and a new invocation starts with an empty map. -/
theorem cache_scoping_amended (s : PState) (id inv j : Nat) :
    (getAST (getAST s id).1 id).2 = ((getAST s id).2.1, true) ∧
    (inv ≠ j →
      (getHTMLCall s inv id).1.htmlPromisesCaches.getD j [] =
        s.htmlPromisesCaches.getD j []) ∧
    (extendNodeTypeInvoke s).1.htmlPromisesCaches.getD s.htmlPromisesCaches.length [] = [] := by
  refine ⟨?_, ?_, ?_⟩
  · cases hl : lookupKey s.astPromiseCache id with
    | some p => simp [getAST, hl]
    | none => simp [getAST, hl, lookupKey_cons]
  · intro hne
    cases hl : lookupKey (s.htmlPromisesCaches.getD inv []) id with
    | some p => simp only [getHTMLCall, hl]
    | none =>
      simp only [getHTMLCall, hl]
      simp [List.getD_eq_getElem?_getD, List.getElem?_set_ne hne]
  · rw [extendNodeTypeInvoke, List.getD_eq_getElem?_getD,
      List.getElem?_concat_length]
    rfl

/-- Witness for C9's amended statement at a concrete state with two
invocations. -/
theorem cache_scoping_amended_witness :
    (getHTMLCall ⟨[], [[], []], 0, [], []⟩ 0 3).1.htmlPromisesCaches.getD 1 [] = [] :=
  ((cache_scoping_amended ⟨[], [[], []], 0, [], []⟩ 3 0 1).2.1 (by decide)).trans (by decide)

/-! ### C1: single-flight discipline of the AST promise cache -/

theorem countP_removeTask_of_mem (p : Nat × Nat → Bool) (l : List (Nat × Nat))
    (t : Nat × Nat) (ht : t ∈ l) :
    (removeTask l t).countP p + (if p t then 1 else 0) = l.countP p := by
  induction l with
  | nil => cases ht
  | cons a l' ih =>
    rw [removeTask, List.countP_cons]
    by_cases hat : a = t
    · subst hat
      rw [if_pos rfl]
    · rw [if_neg hat, List.countP_cons]
      have ht' : t ∈ l' := by
        rcases List.mem_cons.mp ht with h1 | h2
        · exact absurd h1.symm hat
        · exact h2
      have ih' := ih ht'
      omega

theorem epochInv_step (id : Nat) (s : PState) (e : CacheEv)
    (he : invalidatesId e id = false) (h : epochInv id s) :
    epochInv id (stepEv s e) := by
  obtain ⟨h0, h1⟩ := h
  cases e with
  | callGetAST id' =>
    simp only [stepEv]
    cases hl : lookupKey s.astPromiseCache id' with
    | some p => exact ⟨by simpa [getAST, hl] using h0, by simpa [getAST, hl] using h1⟩
    | none =>
      simp only [getAST, hl]
      by_cases hid : id' = id
      · subst hid
        obtain ⟨ht0, hp0⟩ := h0 hl
        constructor
        · intro hc
          rw [lookupKey_cons, if_pos rfl] at hc
          cases hc
        · simp only [tasksFor, parsesFor, List.countP_append] at *
          simp [List.countP_cons, ht0, hp0]
      · constructor
        · intro hc
          rw [lookupKey_cons, if_neg hid] at hc
          obtain ⟨ht0, hp0⟩ := h0 hc
          simp only [tasksFor, parsesFor, List.countP_append] at *
          simp [List.countP_cons, ht0, hp0, hid]
        · simp only [tasksFor, parsesFor, List.countP_append] at *
          have : (if (id', s.nextProm).1 == id then 1 else 0) = 0 := by simp [hid]
          simp only [List.countP_cons, List.countP_nil, this] at *
          omega
  | runTask t =>
    simp only [stepEv, runPipelineTask]
    by_cases hmem : t ∈ s.pendingParseTasks
    · rw [if_pos hmem]
      have hcnt := countP_removeTask_of_mem (fun x => x.1 == id) s.pendingParseTasks t hmem
      simp only at hcnt
      by_cases htid : t.1 = id
      · have ho : (if (t.1 == id) = true then 1 else 0) = 1 := by simp [htid]
        rw [ho] at hcnt
        have hone : List.count id [t.1] = 1 := by simp [List.count_cons, htid]
        constructor
        · intro hc
          obtain ⟨ht0, hp0⟩ := h0 hc
          exfalso
          simp only [tasksFor] at ht0
          omega
        · simp only [tasksFor, parsesFor, List.count_append, hone] at h1 ⊢
          omega
      · have ho : (if (t.1 == id) = true then 1 else 0) = 0 := by simp [htid]
        rw [ho] at hcnt
        have hzero : List.count id [t.1] = 0 := by simp [List.count_cons, htid]
        constructor
        · intro hc
          obtain ⟨ht0, hp0⟩ := h0 hc
          simp only [tasksFor, parsesFor, List.count_append, hzero] at ht0 hp0 ⊢
          omega
        · simp only [tasksFor, parsesFor, List.count_append, hzero] at h1 ⊢
          omega
    · rw [if_neg hmem]
      exact ⟨h0, h1⟩
  | nodeCreated n =>
    simp only [stepEv, onNodeCreate]
    by_cases hty : n.type = "MarkdownRemark"
    · rw [if_pos hty]
      have hne : n.id ≠ id := by
        intro hh
        rw [invalidatesId] at he
        simp [hty, hh] at he
      constructor
      · intro hc
        rw [lookupKey_eraseKey_ne _ _ _ hne] at hc
        exact h0 hc
      · exact h1
    · rw [if_neg hty]
      exact ⟨h0, h1⟩

theorem cache_stable_step (id p : Nat) (s : PState) (e : CacheEv)
    (he : invalidatesId e id = false)
    (hc : lookupKey s.astPromiseCache id = some p) :
    lookupKey (stepEv s e).astPromiseCache id = some p := by
  cases e with
  | callGetAST id' =>
    simp only [stepEv]
    cases hl : lookupKey s.astPromiseCache id' with
    | some q => simpa [getAST, hl] using hc
    | none =>
      simp only [getAST, hl]
      rw [lookupKey_cons]
      by_cases hid : id' = id
      · subst hid
        rw [hl] at hc
        cases hc
      · rw [if_neg hid]
        exact hc
  | runTask t =>
    simp only [stepEv, runPipelineTask]
    by_cases hmem : t ∈ s.pendingParseTasks
    · rw [if_pos hmem]
      exact hc
    · rw [if_neg hmem]
      exact hc
  | nodeCreated n =>
    simp only [stepEv, onNodeCreate]
    by_cases hty : n.type = "MarkdownRemark"
    · rw [if_pos hty]
      have hne : n.id ≠ id := by
        intro hh
        rw [invalidatesId] at he
        simp [hty, hh] at he
      rw [lookupKey_eraseKey_ne _ _ _ hne]
      exact hc
    · rw [if_neg hty]
      exact hc

theorem runEvs_cons (s : PState) (e : CacheEv) (tr : List CacheEv) :
    runEvs s (e :: tr) = runEvs (stepEv s e) tr := rfl

theorem epochInv_runEvs (id : Nat) (s : PState) (tr : List CacheEv)
    (htr : ∀ e ∈ tr, invalidatesId e id = false) (h : epochInv id s) :
    epochInv id (runEvs s tr) := by
  induction tr generalizing s with
  | nil => exact h
  | cons e tr' ih =>
    rw [runEvs_cons]
    exact ih (stepEv s e) (fun e' he' => htr e' (List.mem_cons_of_mem _ he'))
      (epochInv_step id s e (htr e (List.mem_cons_self _ _)) h)

theorem cache_stable_runEvs (id p : Nat) (s : PState) (tr : List CacheEv)
    (htr : ∀ e ∈ tr, invalidatesId e id = false)
    (hc : lookupKey s.astPromiseCache id = some p) :
    lookupKey (runEvs s tr).astPromiseCache id = some p := by
  induction tr generalizing s with
  | nil => exact hc
  | cons e tr' ih =>
    rw [runEvs_cons]
    exact ih (stepEv s e) (fun e' he' => htr e' (List.mem_cons_of_mem _ he'))
      (cache_stable_step id p s e (htr e (List.mem_cons_self _ _)) hc)

theorem epochInv_pinit (id : Nat) : epochInv id pinit := by
  constructor
  · intro _
    exact ⟨rfl, rfl⟩
  · simp [tasksFor, parsesFor, pinit]

/-- C1: within one cache epoch of `id` (a schedule with no invalidation of
`id`, interleaving `getAST` calls, asynchronous pipeline continuations and
unrelated invalidations in any order starting from the fresh module state):
(1) `remark.parse` runs at most once for `id`; (2) once the cache holds a
handle for `id`, it keeps that exact handle through any further such
schedule, and every later `getAST` call returns it, so all calls during or
after the first receive the first call's result; (3) a `getAST` call that
misses stores the fresh pending handle in the cache and returns with the
pipeline continuation still queued, i.e. the handle is in the cache before
any asynchronous pipeline work has run. -/
theorem getAST_single_flight (id : Nat) (tr : List CacheEv)
    (htr : ∀ e ∈ tr, invalidatesId e id = false) :
    parsesFor (runEvs pinit tr) id ≤ 1 ∧
    (∀ p, lookupKey (runEvs pinit tr).astPromiseCache id = some p →
      ∀ tr2, (∀ e ∈ tr2, invalidatesId e id = false) →
        lookupKey (runEvs (runEvs pinit tr) tr2).astPromiseCache id = some p ∧
        (getAST (runEvs (runEvs pinit tr) tr2) id).2.1 = p) ∧
    (∀ s : PState, lookupKey s.astPromiseCache id = none →
      lookupKey (getAST s id).1.astPromiseCache id = some s.nextProm ∧
      (id, s.nextProm) ∈ (getAST s id).1.pendingParseTasks ∧
      (getAST s id).2.1 = s.nextProm) := by
  refine ⟨?_, ?_, ?_⟩
  · have h := epochInv_runEvs id pinit tr htr (epochInv_pinit id)
    exact le_trans (Nat.le_add_left _ _) h.2
  · intro p hp tr2 htr2
    have hstable := cache_stable_runEvs id p (runEvs pinit tr) tr2 htr2 hp
    refine ⟨hstable, ?_⟩
    simp [getAST, hstable]
  · intro s hs
    refine ⟨?_, ?_, ?_⟩
    · simp [getAST, hs, lookupKey_cons]
    · simp [getAST, hs]
    · simp [getAST, hs]

/-- Witness for C1: a schedule with three `getAST` calls for id 0 and the
pipeline continuation executed in between; only one parse happens. -/
theorem getAST_single_flight_witness :
    parsesFor (runEvs pinit
      [CacheEv.callGetAST 0, CacheEv.callGetAST 0, CacheEv.runTask (0, 0),
        CacheEv.callGetAST 0]) 0 ≤ 1 :=
  (getAST_single_flight 0
    [CacheEv.callGetAST 0, CacheEv.callGetAST 0, CacheEv.runTask (0, 0),
      CacheEv.callGetAST 0] (by decide)).1

/-! ### The markdown syntax tree and the plugin pipeline -/

theorem mem_mutateEvents (plugins : List RemarkPlugin) (e : PipeEv)
    (he : e ∈ mutateEvents plugins) : ∃ i, e = PipeEv.mutateCall i := by
  rcases List.mem_map.mp he with ⟨p, _, rfl⟩
  exact ⟨p.1, rfl⟩

theorem mem_pluginEvents (plugins : List RemarkPlugin) (e : PipeEv)
    (he : e ∈ pluginEvents plugins) : ∃ i, e = PipeEv.pluginCall i := by
  rcases List.mem_map.mp he with ⟨p, _, rfl⟩
  exact ⟨p.1, rfl⟩

theorem parseCall_not_mem_mutateEvents (plugins : List RemarkPlugin) :
    PipeEv.parseCall ∉ mutateEvents plugins := by
  intro h
  rcases mem_mutateEvents plugins _ h with ⟨i, hi⟩
  cases hi

theorem parseCall_not_mem_pluginEvents (plugins : List RemarkPlugin) :
    PipeEv.parseCall ∉ pluginEvents plugins := by
  intro h
  rcases mem_pluginEvents plugins _ h with ⟨i, hi⟩
  cases hi

theorem count_parse_barrier (mE pE : List PipeEv)
    (hm : PipeEv.parseCall ∉ mE) (hp : PipeEv.parseCall ∉ pE) :
    (mE ++ [PipeEv.parseCall] ++ pE).count PipeEv.parseCall = 1 := by
  rw [List.count_append, List.count_append,
    List.count_eq_zero.mpr hm, List.count_eq_zero.mpr hp]
  rfl

theorem pipeEvents_order (mE pE : List PipeEv)
    (hm : PipeEv.parseCall ∉ mE) (hmm : ∀ i, PipeEv.mutateCall i ∉ pE) :
    ∀ (k j i : Nat), (mE ++ [PipeEv.parseCall] ++ pE)[k]? = some PipeEv.parseCall →
      (mE ++ [PipeEv.parseCall] ++ pE)[j]? = some (PipeEv.mutateCall i) → j < k := by
  intro k j i hk hj
  rw [List.append_assoc] at hk hj
  by_cases hjm : j < mE.length
  · by_cases hkm : k < mE.length
    · exfalso
      rw [List.getElem?_append_left hkm] at hk
      exact hm (List.getElem?_mem hk)
    · omega
  · exfalso
    rw [List.getElem?_append_right (Nat.le_of_not_lt hjm)] at hj
    have hmem := List.getElem?_mem hj
    rcases List.mem_append.mp hmem with h1 | h2
    · cases List.mem_singleton.mp h1
    · exact hmm i h2

/-- C3: in every cache-populating run of the pipeline, `remark.parse` is
dispatched at most once, exactly once when the mutate-source phase succeeds,
every mutate-source dispatch precedes the parse event (phase 1 settles
before phase 2 begins), and a resolved run attaches exactly the tree obtained
by parsing the phase-1-mutated source (further transformed by the typegen
phase). -/
theorem parse_once_after_mutations (parse : List Char → MdNode)
    (plugins : List RemarkPlugin) (node : MarkdownNode) :
    (astPipeline parse plugins node).2.count PipeEv.parseCall ≤ 1 ∧
    (isOkE (mutatePhase plugins node.src) = true →
      (astPipeline parse plugins node).2.count PipeEv.parseCall = 1) ∧
    (∀ (k j i : Nat), (astPipeline parse plugins node).2[k]? = some PipeEv.parseCall →
      (astPipeline parse plugins node).2[j]? = some (PipeEv.mutateCall i) → j < k) ∧
    (∀ n', (astPipeline parse plugins node).1 = Settlement.resolved n' →
      ∃ src1 ast1, mutatePhase plugins node.src = Except.ok src1 ∧
        pluginPhase plugins (parse src1) = Except.ok ast1 ∧
        n'.ast = some ast1 ∧ n'.src = src1) := by
  have hmm : ∀ i, PipeEv.mutateCall i ∉ pluginEvents plugins := by
    intro i h
    rcases mem_pluginEvents plugins _ h with ⟨i', hi⟩
    cases hi
  cases hm : mutatePhase plugins node.src with
  | error e =>
    refine ⟨?_, ?_, ?_, ?_⟩
    · simp [astPipeline, hm,
        List.count_eq_zero.mpr (parseCall_not_mem_mutateEvents plugins)]
    · intro hok
      simp [isOkE] at hok
    · intro k j i hk hj
      exfalso
      simp only [astPipeline, hm] at hk
      exact parseCall_not_mem_mutateEvents plugins (List.getElem?_mem hk)
    · intro n' hn
      simp [astPipeline, hm] at hn
  | ok src1 =>
    have hnotm := parseCall_not_mem_mutateEvents plugins
    have hnotp := parseCall_not_mem_pluginEvents plugins
    have hcount := count_parse_barrier (mutateEvents plugins) (pluginEvents plugins) hnotm hnotp
    cases hp : pluginPhase plugins (parse src1) with
    | error e =>
      have heq : (astPipeline parse plugins node).2 =
          mutateEvents plugins ++ [PipeEv.parseCall] ++ pluginEvents plugins := by
        simp only [astPipeline, hm, hp]
      refine ⟨?_, fun _ => ?_, ?_, ?_⟩
      · rw [heq, hcount]
      · rw [heq]
        exact hcount
      · intro k j i hk hj
        rw [heq] at hk hj
        exact pipeEvents_order _ _ hnotm hmm k j i hk hj
      · intro n' hn
        simp [astPipeline, hm, hp] at hn
    | ok ast1 =>
      have heq : (astPipeline parse plugins node).2 =
          mutateEvents plugins ++ [PipeEv.parseCall] ++ pluginEvents plugins := by
        simp only [astPipeline, hm, hp]
      have hset : (astPipeline parse plugins node).1 =
          Settlement.resolved { node with src := src1, ast := some ast1 } := by
        simp only [astPipeline, hm, hp]
      refine ⟨?_, fun _ => ?_, ?_, ?_⟩
      · rw [heq, hcount]
      · rw [heq]
        exact hcount
      · intro k j i hk hj
        rw [heq] at hk hj
        exact pipeEvents_order _ _ hnotm hmm k j i hk hj
      · intro n' hn
        rw [hset] at hn
        injection hn with h
        refine ⟨src1, ast1, rfl, hp, ?_, ?_⟩
        · rw [← h]
        · rw [← h]

/-- Witness for C3: a single plugin that appends `!` to the source; the
pipeline parses exactly once. -/
theorem parse_once_after_mutations_witness :
    ((astPipeline parseStub
        [⟨some (fun s => Except.ok (s ++ ['!'])), none⟩]
        ⟨1, ['h', 'i'], none⟩).2).count PipeEv.parseCall = 1 :=
  (parse_once_after_mutations parseStub
    [⟨some (fun s => Except.ok (s ++ ['!'])), none⟩] ⟨1, ['h', 'i'], none⟩).2.1 rfl

/-! ### C2: what a plugin failure does to the pipeline promise -/

/-- C2 counterexample: with a plugin whose mutate-source call rejects, the
run's promise does not fail (it is not rejected, so the failure is never
delivered to any waiter) and does not resolve either: it never settles. -/
theorem plugin_failure_cex :
    mutatePhase [failPlugin] (⟨7, ['x'], none⟩ : MarkdownNode).src =
      Except.error ['b', 'a', 'd'] ∧
    (astPipeline parseStub [failPlugin] ⟨7, ['x'], none⟩).1 = Settlement.unsettled ∧
    (astPipeline parseStub [failPlugin] ⟨7, ['x'], none⟩).1.isRejected = false ∧
    (astPipeline parseStub [failPlugin] ⟨7, ['x'], none⟩).1.isSettled = false :=
  ⟨rfl, rfl, rfl, rfl⟩

/-- C2 amended: if any plugin call in either phase fails, the identifier's
cached promise never settles — it is neither resolved (so no partial syntax
tree is ever exposed) nor rejected (the executor never calls `reject` and the
`Promise.all` rejection has no handler), so every current and future waiter
on the cached entry waits forever. -/
theorem plugin_failure_never_settles (parse : List Char → MdNode)
    (plugins : List RemarkPlugin) (node : MarkdownNode) (e : List Char)
    (h : mutatePhase plugins node.src = Except.error e ∨
      ∃ src1, mutatePhase plugins node.src = Except.ok src1 ∧
        pluginPhase plugins (parse src1) = Except.error e) :
    (astPipeline parse plugins node).1 = Settlement.unsettled ∧
    (astPipeline parse plugins node).1.isSettled = false ∧
    (astPipeline parse plugins node).1.isRejected = false := by
  rcases h with hm | ⟨src1, hm, hp⟩
  · refine ⟨?_, ?_, ?_⟩ <;> simp [astPipeline, hm, Settlement.isSettled, Settlement.isRejected]
  · refine ⟨?_, ?_, ?_⟩ <;>
      simp [astPipeline, hm, hp, Settlement.isSettled, Settlement.isRejected]

/-- Witness for C2's amended statement: a typegen-phase failure also leaves
the promise unsettled. -/
theorem plugin_failure_never_settles_witness :
    (astPipeline parseStub [typegenFailPlugin] ⟨2, ['y'], none⟩).1 = Settlement.unsettled ∧
    (astPipeline parseStub [typegenFailPlugin] ⟨2, ['y'], none⟩).1.isSettled = false ∧
    (astPipeline parseStub [typegenFailPlugin] ⟨2, ['y'], none⟩).1.isRejected = false :=
  plugin_failure_never_settles parseStub [typegenFailPlugin] ⟨2, ['y'], none⟩ ['e']
    (Or.inr ⟨['y'], rfl, rfl⟩)

/-! ### C8: a plugin exposing only `mutateSource` -/

/-- C8: a plugin exposing only the mutate-source capability is a no-op in the
typegen (annotation) phase — that phase succeeds on any tree — and with such
a plugin configured the pipeline still parses and resolves with the tree
parsed from the mutated source. -/
theorem mutate_only_plugin_ok (parse : List Char → MdNode)
    (m : List Char → Except (List Char) (List Char)) (node : MarkdownNode)
    (src1 : List Char) :
    (∀ a : MdNode, pluginPhase [⟨some m, none⟩] a = Except.ok a) ∧
    (m node.src = Except.ok src1 →
      astPipeline parse [⟨some m, none⟩] node =
        (Settlement.resolved { node with src := src1, ast := some (parse src1) },
          [PipeEv.mutateCall 0, PipeEv.parseCall])) := by
  constructor
  · intro a
    rfl
  · intro hm
    have h1 : mutatePhase [(⟨some m, none⟩ : RemarkPlugin)] node.src = Except.ok src1 := by
      simpa [mutatePhase, List.foldl] using hm
    simp only [astPipeline, h1]
    rfl

/-- Witness for C8: the plugin appends `!` to the source; the resolved record
carries the tree of the mutated source. -/
theorem mutate_only_plugin_ok_witness :
    astPipeline parseStub [⟨some (fun s => Except.ok (s ++ ['!'])), none⟩]
        ⟨1, ['h', 'i'], none⟩ =
      (Settlement.resolved ⟨1, ['h', 'i', '!'], some (parseStub ['h', 'i', '!'])⟩,
        [PipeEv.mutateCall 0, PipeEv.parseCall]) :=
  (mutate_only_plugin_ok parseStub (fun s => Except.ok (s ++ ['!']))
    ⟨1, ['h', 'i'], none⟩ ['h', 'i', '!']).2 rfl

/-! ### C7: the headings resolver -/

/-- C7: the resolver returns one `(value, depth)` entry per heading node of
the tree in document order, the value being the heading's first contained
text value, and with a `depth` argument it returns exactly the entries of
that depth as an order-preserving sublist of the full answer. -/
theorem headings_resolve_spec (ast : MdNode) (d : Nat) :
    (headingsResolve ast none).length = (selectNode "heading" ast).length ∧
    (∀ (k : Nat) (h' : MdNode), (selectNode "heading" ast)[k]? = some h' →
      (headingsResolve ast none)[k]? =
        some ⟨((selectNode "text" h').map MdNode.value).head?, h'.depth⟩) ∧
    headingsResolve ast (some d) =
      (headingsResolve ast none).filter (fun h' => h'.depth == d) ∧
    List.Sublist (headingsResolve ast (some d)) (headingsResolve ast none) ∧
    (∀ h' ∈ headingsResolve ast (some d), h'.depth = d) := by
  refine ⟨?_, ?_, rfl, ?_, ?_⟩
  · simp [headingsResolve, getHeadings]
  · intro k h' hk
    simp only [headingsResolve, getHeadings, List.getElem?_map, hk, Option.map_some']
  · exact List.filter_sublist _
  · intro h' hmem
    have := List.of_mem_filter hmem
    simpa using this

/-- Witness for C7 on the depth profile `[1, 2, 2, 3]`: the first heading
entry is `(A, 1)`, and filtering at depth 2 yields exactly the two depth-2
headings in original order. -/
theorem headings_resolve_spec_witness :
    (headingsResolve depthsDoc none)[0]? = some ⟨some ['A'], 1⟩ ∧
    headingsResolve depthsDoc (some 2) =
      (headingsResolve depthsDoc none).filter (fun h' => h'.depth == 2) ∧
    headingsResolve depthsDoc (some 2) = [⟨some ['B'], 2⟩, ⟨some ['C'], 2⟩] := by
  refine ⟨?_, (headings_resolve_spec depthsDoc 2).2.2.1, rfl⟩
  have h := (headings_resolve_spec depthsDoc 2).2.1 0
    (MdNode.mk "heading" 1 []
      (MdForest.cons (MdNode.mk "text" 0 ['A'] MdForest.nil) MdForest.nil)) rfl
  simpa using h

/-! ### C5: the timeToRead resolver -/

theorem stripTagsGo_no_tag (b : Bool) (l : List Char) :
    ((stripTagsGo b l).all fun c => c != '<') = true := by
  induction l generalizing b with
  | nil => cases b <;> rfl
  | cons c rest ih =>
    cases b with
    | false =>
      simp only [stripTagsGo]
      by_cases hc : c = '<'
      · rw [if_pos hc]
        exact ih true
      · rw [if_neg hc]
        simp [List.all_cons, ih false, hc]
    | true =>
      simp only [stripTagsGo]
      by_cases hc : c = '>'
      · rw [if_pos hc]
        exact ih false
      · rw [if_neg hc]
        exact ih true

/-- C5: `timeToRead` lets no tag through (the sanitized text has no `<`),
divides the word count by 265 rounding to the nearest integer — the natural
formula `(2 * wc + 265) / 530` agrees with `round (wc / 265 : ℚ)`, which is
what `Math.round(wordCount / 265)` computes — floors the result at 1, and
returns 1 on the empty document. -/
theorem timeToRead_spec :
    (∀ wc : Nat, (((2 * wc + 265) / 530 : Nat) : ℤ) = round ((wc : ℚ) / 265)) ∧
    (∀ html : List Char,
      timeToRead html = max 1 ((2 * (wordsOf (stripTags html)).length + 265) / 530)) ∧
    (∀ html : List Char, 1 ≤ timeToRead html) ∧
    (∀ html : List Char, ((stripTags html).all fun c => c != '<') = true) ∧
    timeToRead [] = 1 := by
  have hmax : ∀ html : List Char,
      timeToRead html = max 1 ((2 * (wordsOf (stripTags html)).length + 265) / 530) := by
    intro html
    simp only [timeToRead]
    by_cases h : (2 * (wordsOf (stripTags html)).length + 265) / 530 = 0
    · simp [h]
    · rw [if_neg h, Nat.max_eq_right (Nat.one_le_iff_ne_zero.mpr h)]
  refine ⟨?_, hmax, ?_, ?_, rfl⟩
  · intro wc
    rw [round_eq]
    have h2 : ((wc : ℚ) / 265 + 1 / 2) = ((2 * wc + 265 : Nat) : ℚ) / 530 := by
      push_cast
      ring
    rw [h2]
    have hdm := Nat.div_add_mod (2 * wc + 265) 530
    have hmod : (2 * wc + 265) % 530 < 530 := Nat.mod_lt _ (by norm_num)
    have hle : 530 * ((2 * wc + 265) / 530) ≤ 2 * wc + 265 := by omega
    have hlt : 2 * wc + 265 < 530 * ((2 * wc + 265) / 530) + 530 := by omega
    symm
    rw [Int.floor_eq_iff]
    constructor
    · rw [le_div_iff₀ (by norm_num : (0 : ℚ) < 530)]
      have hgoal : (2 * wc + 265) / 530 * 530 ≤ 2 * wc + 265 := by omega
      exact_mod_cast hgoal
    · rw [div_lt_iff₀ (by norm_num : (0 : ℚ) < 530)]
      have hgoal : 2 * wc + 265 < ((2 * wc + 265) / 530 + 1) * 530 := by omega
      exact_mod_cast hgoal
  · intro html
    rw [hmax html]
    exact le_max_left 1 _
  · intro html
    exact stripTagsGo_no_tag false html

/-! ### C6: the excerpt resolver and underscore.string prune -/

theorem space_not_cased (c : Char) (h : isSpaceJS c = true) : isCasedLetter c = false := by
  have hcc : c = ' ' ∨ c = '\t' ∨ c = '\n' ∨ c = '\r' ∨ c = '\x0b' ∨ c = '\x0c' := by
    simpa [isSpaceJS, or_assoc] using h
  rcases hcc with h | h | h | h | h | h <;> subst h <;> decide

theorem tmplChar_cases (c : Char) : tmplChar c = 'A' ∨ tmplChar c = ' ' := by
  rw [tmplChar]
  by_cases h : isCasedLetter c = true
  · left
    rw [if_pos h]
  · right
    rw [if_neg h]

theorem tmplChar_space_not_cased (c : Char) (h : tmplChar c = ' ') :
    isCasedLetter c = false := by
  by_contra hc
  rw [Bool.not_eq_false] at hc
  rw [tmplChar, if_pos hc] at h
  cases h

theorem tmplChar_w_eq_A (c : Char) (h : isWChar (tmplChar c) = true) : tmplChar c = 'A' := by
  rcases tmplChar_cases c with h1 | h1
  · exact h1
  · rw [h1] at h
    exact absurd h (by decide)

theorem pruneKeep_le (l : List Char) : pruneKeep l ≤ l.length := Nat.sub_le _ _

theorem pruneTemplate_length (l : List Char) : (pruneTemplate l).length = l.length := by
  rw [pruneTemplate, List.length_append, List.length_take, List.length_map,
    List.length_drop, Nat.min_eq_left (pruneKeep_le l)]
  have := pruneKeep_le l
  omega

theorem wSuffix_add_mid_pos (l : List Char) (h : l ≠ []) :
    1 ≤ wSuffixLen l + nwMidLen l := by
  rcases hr : l.reverse with _ | ⟨c, rt⟩
  · exact absurd (by simpa using congrArg List.reverse hr) h
  · by_cases hw : isWChar c = true
    · have : wSuffixLen l = ((c :: rt).takeWhile isWChar).length := by rw [wSuffixLen, hr]
      rw [List.takeWhile_cons, if_pos hw] at this
      simp only [List.length_cons] at this
      omega
    · have ha : wSuffixLen l = 0 := by
        rw [wSuffixLen, hr, List.takeWhile_cons, if_neg hw]
        rfl
      have : nwMidLen l = ((c :: rt).takeWhile (fun c => !(isWChar c))).length := by
        rw [nwMidLen, ha, hr, List.drop_zero]
      rw [List.takeWhile_cons, if_pos (by simp [hw])] at this
      simp only [List.length_cons] at this
      omega

theorem pruneKeep_le_sub_two (l : List Char) (h2 : 2 ≤ l.length) :
    pruneKeep l + 2 ≤ l.length := by
  have hne : l ≠ [] := by
    intro h
    rw [h] at h2
    cases h2
  have := wSuffix_add_mid_pos l hne
  rw [pruneKeep]
  omega

theorem pruneTemplate_getElem_lt (l : List Char) (j : Nat) (hj : j < pruneKeep l) :
    (pruneTemplate l)[j]? = l[j]? := by
  have hjl : j < l.length := lt_of_lt_of_le hj (pruneKeep_le l)
  rw [pruneTemplate,
    List.getElem?_append_left
      (by rw [List.length_take, Nat.min_eq_left (pruneKeep_le l)]; exact hj),
    List.getElem?_take_of_lt hj]

theorem pruneTemplate_getElem_ge (l : List Char) (j : Nat) (hj : pruneKeep l ≤ j) :
    (pruneTemplate l)[j]? = (l[j]?).map tmplChar := by
  by_cases hjl : j < l.length
  · have htl : (l.take (pruneKeep l)).length = pruneKeep l := by
      rw [List.length_take, Nat.min_eq_left (pruneKeep_le l)]
    rw [pruneTemplate, List.getElem?_append_right (by rw [htl]; exact hj),
      List.getElem?_map, List.getElem?_drop, htl]
    have harith : pruneKeep l + (j - pruneKeep l) = j := by omega
    rw [harith]
  · have h1 : (pruneTemplate l)[j]? = none := by
      rw [List.getElem?_eq_none_iff, pruneTemplate_length]
      omega
    have h2 : l[j]? = none := by
      rw [List.getElem?_eq_none_iff]
      omega
    rw [h1, h2]
    rfl

theorem template_space_not_cased (l : List Char) (j : Nat) (c : Char)
    (hj : (pruneTemplate l)[j]? = some c) (hsp : isSpaceJS c = true) :
    ∃ c0, l[j]? = some c0 ∧ isCasedLetter c0 = false := by
  by_cases hk : j < pruneKeep l
  · rw [pruneTemplate_getElem_lt l j hk] at hj
    exact ⟨c, hj, space_not_cased c hsp⟩
  · rw [pruneTemplate_getElem_ge l j (Nat.le_of_not_lt hk)] at hj
    rcases Option.map_eq_some'.mp hj with ⟨c0, hc0, hc⟩
    refine ⟨c0, hc0, ?_⟩
    rcases tmplChar_cases c0 with hA | hSp
    · rw [hA] at hc
      rw [← hc] at hsp
      exact absurd hsp (by decide)
    · exact tmplChar_space_not_cased c0 hSp

theorem dropWhile_head_space (l : List Char) (c : Char) (cs : List Char)
    (h : l.dropWhile (fun c => !(isSpaceJS c)) = c :: cs) : isSpaceJS c = true := by
  induction l with
  | nil => cases h
  | cons a t ih =>
    rw [List.dropWhile_cons] at h
    by_cases ha : isSpaceJS a = true
    · rw [if_neg (by simp [ha])] at h
      cases h
      exact ha
    · rw [if_pos (by simp [ha])] at h
      exact ih h

theorem takeWhile_nil_head (p : Char → Bool) (l : List Char) (c : Char) (cs : List Char)
    (hl : l = c :: cs) (h : l.takeWhile p = []) : p c = false := by
  subst hl
  rw [List.takeWhile_cons] at h
  by_cases hp : p c = true
  · rw [if_pos hp] at h
    cases h
  · exact Bool.eq_false_iff.mpr hp

theorem take_decomp (A B t : List Char) (ht : t = A ++ B) : t.take A.length = A := by
  rw [ht]
  exact List.take_left _ _

theorem getElem_decomp (A B t : List Char) (c : Char) (cs : List Char)
    (ht : t = A ++ B) (hB : B = c :: cs) : t[A.length]? = some c := by
  rw [ht, List.getElem?_append_right (le_refl A.length), Nat.sub_self, hB]
  simp

theorem rtrimJS_take (t : List Char) :
    ∃ k, rtrimJS t = t.take k ∧
      k + (t.reverse.takeWhile isSpaceJS).length = t.length ∧
      (k = 0 ∨ k = t.length ∨ ∃ c, t[k]? = some c ∧ isSpaceJS c = true) := by
  have hsplit : t.reverse.takeWhile isSpaceJS ++ t.reverse.dropWhile isSpaceJS = t.reverse :=
    List.takeWhile_append_dropWhile _ _
  have ht : t = (t.reverse.dropWhile isSpaceJS).reverse ++
      (t.reverse.takeWhile isSpaceJS).reverse := by
    have h0 := congrArg List.reverse hsplit
    rw [List.reverse_append, List.reverse_reverse] at h0
    exact h0.symm
  have hklen : ((t.reverse.dropWhile isSpaceJS).reverse).length =
      (t.reverse.dropWhile isSpaceJS).length := List.length_reverse _
  have hlensum := congrArg List.length hsplit
  rw [List.length_append, List.length_reverse] at hlensum
  refine ⟨(t.reverse.dropWhile isSpaceJS).length, ?_, by omega, ?_⟩
  · rw [rtrimJS, ← hklen]
    exact (take_decomp _ _ t ht).symm
  · rcases hx : t.reverse.takeWhile isSpaceJS with _ | ⟨c0, xs⟩
    · right
      left
      rw [hx] at hlensum
      simp only [List.length_nil] at hlensum
      omega
    · right
      right
      rcases hxr : (t.reverse.takeWhile isSpaceJS).reverse with _ | ⟨c, cs⟩
      · exfalso
        have hc := congrArg List.length hxr
        rw [List.length_reverse, hx] at hc
        cases hc
      · refine ⟨c, ?_, ?_⟩
        · rw [← hklen]
          exact getElem_decomp _ _ t c cs ht hxr
        · have hcmem : c ∈ t.reverse.takeWhile isSpaceJS := by
            rw [← List.mem_reverse, hxr]
            exact List.mem_cons_self _ _
          exact List.mem_takeWhile_imp hcmem

theorem dropTrailingWordRun_else (t : List Char) (c0 : Char) (rt : List Char)
    (hr : t.reverse = c0 :: rt) (hns : ¬ isSpaceJS c0 = true) :
    ∃ k, dropTrailingWordRun t = t.take k ∧
      k + ((t.reverse.dropWhile (fun c => !(isSpaceJS c))).takeWhile isSpaceJS).length +
        (t.reverse.takeWhile (fun c => !(isSpaceJS c))).length = t.length ∧
      (k = 0 ∨ ∃ c, t[k]? = some c ∧ isSpaceJS c = true) := by
  have hval : dropTrailingWordRun t =
      ((t.reverse.dropWhile (fun c => !(isSpaceJS c))).dropWhile isSpaceJS).reverse := by
    simp only [dropTrailingWordRun, hr]
    rw [if_neg hns, ← hr]
  have hsplit1 : t.reverse.takeWhile (fun c => !(isSpaceJS c)) ++
      t.reverse.dropWhile (fun c => !(isSpaceJS c)) = t.reverse :=
    List.takeWhile_append_dropWhile _ _
  have hsplit2 : (t.reverse.dropWhile (fun c => !(isSpaceJS c))).takeWhile isSpaceJS ++
      (t.reverse.dropWhile (fun c => !(isSpaceJS c))).dropWhile isSpaceJS =
      t.reverse.dropWhile (fun c => !(isSpaceJS c)) :=
    List.takeWhile_append_dropWhile _ _
  set x1 := t.reverse.takeWhile (fun c => !(isSpaceJS c)) with hx1
  set r1 := t.reverse.dropWhile (fun c => !(isSpaceJS c)) with hr1
  set x2 := r1.takeWhile isSpaceJS with hx2
  set r2 := r1.dropWhile isSpaceJS with hr2
  have ht : t = r2.reverse ++ (x2.reverse ++ x1.reverse) := by
    have h0 := congrArg List.reverse hsplit1
    rw [List.reverse_append, List.reverse_reverse] at h0
    rw [← hsplit2, List.reverse_append, List.append_assoc] at h0
    exact h0.symm
  have hklen : (r2.reverse).length = r2.length := List.length_reverse _
  have hlen1 := congrArg List.length hsplit1
  rw [List.length_append, List.length_reverse] at hlen1
  have hlen2 := congrArg List.length hsplit2
  rw [List.length_append] at hlen2
  refine ⟨r2.length, ?_, by omega, ?_⟩
  · rw [hval, ← hklen]
    exact (take_decomp _ _ t ht).symm
  · rcases hr2c : r2 with _ | ⟨d, ds⟩
    · left
      rfl
    · right
      have hr1ne : ∃ e es, r1 = e :: es := by
        rcases he : r1 with _ | ⟨e, es⟩
        · exfalso
          rw [hr2, he] at hr2c
          cases hr2c
        · exact ⟨e, es, rfl⟩
      rcases hr1ne with ⟨e, es, he⟩
      have hesp : isSpaceJS e = true := dropWhile_head_space t.reverse e es (by rw [← hr1, he])
      have hx2ne : x2 ≠ [] := by
        rw [hx2, he, List.takeWhile_cons, if_pos hesp]
        intro hcontra
        cases hcontra
      rcases hxr : x2.reverse with _ | ⟨c, cs⟩
      · exact absurd (by simpa using congrArg List.reverse hxr) (by simpa using hx2ne)
      · refine ⟨c, ?_, ?_⟩
        · rw [← hr2c, ← hklen]
          have hBxr : x2.reverse ++ x1.reverse = c :: (cs ++ x1.reverse) := by
            rw [hxr]
            rfl
          exact getElem_decomp _ _ t c (cs ++ x1.reverse) ht hBxr
        · have hcmem : c ∈ x2 := by
            rw [← List.mem_reverse, hxr]
            exact List.mem_cons_self _ _
          rw [hx2] at hcmem
          exact List.mem_takeWhile_imp hcmem

theorem lastTwoAreW_true_shape (t : List Char) (h : lastTwoAreW t = true) :
    ∃ c1 c2 rest, t.reverse = c1 :: c2 :: rest ∧ isWChar c1 = true ∧ isWChar c2 = true := by
  rcases hr : t.reverse with _ | ⟨c1, _ | ⟨c2, rest⟩⟩
  · simp [lastTwoAreW, hr] at h
  · simp [lastTwoAreW, hr] at h
  · simp only [lastTwoAreW, hr, Bool.and_eq_true] at h
    exact ⟨c1, c2, rest, rfl, h.1, h.2⟩

theorem lastTwoAreW_false_or (t : List Char) (c1 c2 : Char) (rest : List Char)
    (hr : t.reverse = c1 :: c2 :: rest) (h : ¬ lastTwoAreW t = true) :
    isWChar c1 = false ∨ isWChar c2 = false := by
  have hf : (isWChar c1 && isWChar c2) = false := by
    rw [Bool.eq_false_iff]
    intro hcontra
    exact h (by simp only [lastTwoAreW, hr]; exact hcontra)
  rcases hw : isWChar c1
  · exact Or.inl rfl
  · right
    rw [hw] at hf
    simpa using hf

theorem usPrune_spec (s : List Char) (n : Nat) :
    (s.length ≤ n → usPrune s n = s) ∧
    (usPrune s n = s ∨
      ∃ k, k ≤ n ∧ usPrune s n = s.take k ++ ['.', '.', '.'] ∧
        (k = 0 ∨ ∃ c, s[k]? = some c ∧ isCasedLetter c = false)) := by
  by_cases hfits : s.length ≤ n
  · exact ⟨fun _ => by simp [usPrune, hfits], Or.inl (by simp [usPrune, hfits])⟩
  have hlt : n < s.length := Nat.lt_of_not_le hfits
  have hlen : (s.take (n + 1)).length = n + 1 := by
    rw [List.length_take]
    omega
  have ht0len : (pruneTemplate (s.take (n + 1))).length = n + 1 := by
    rw [pruneTemplate_length, hlen]
  have hkeep2 : pruneKeep (s.take (n + 1)) + 2 ≤ n + 1 ∨ n = 0 := by
    by_cases hn0 : n = 0
    · exact Or.inr hn0
    · left
      have := pruneKeep_le_sub_two (s.take (n + 1)) (by rw [hlen]; omega)
      omega
  have hky : ∃ k, (pruneTmpl s n).length = k ∧ k ≤ n ∧
      (k = 0 ∨ ∃ c, s[k]? = some c ∧ isCasedLetter c = false) := by
    by_cases hbr : lastTwoAreW (pruneTemplate (s.take (n + 1))) = true
    · -- branch 1: drop the trailing word run and its leading spaces
      obtain ⟨c1, c2, rest, hrev, hw1, hw2⟩ := lastTwoAreW_true_shape _ hbr
      have hrevlen := congrArg List.length hrev
      rw [List.length_reverse, ht0len] at hrevlen
      simp only [List.length_cons] at hrevlen
      have hn1 : 1 ≤ n := by omega
      have hkeeple : pruneKeep (s.take (n + 1)) + 2 ≤ n + 1 := by
        rcases hkeep2 with h | h
        · exact h
        · omega
      have hidx1 : (pruneTemplate (s.take (n + 1)))[n]? = some c1 := by
        have h0 := List.getElem?_reverse (l := pruneTemplate (s.take (n + 1))) (i := 0)
          (by rw [ht0len]; omega)
        rw [hrev, ht0len, List.getElem?_cons_zero] at h0
        have harith : n + 1 - 1 - 0 = n := by omega
        rw [harith] at h0
        exact h0.symm
      have hidx2 : (pruneTemplate (s.take (n + 1)))[n - 1]? = some c2 := by
        have h0 := List.getElem?_reverse (l := pruneTemplate (s.take (n + 1))) (i := 1)
          (by rw [ht0len]; omega)
        rw [hrev, ht0len] at h0
        have harith : n + 1 - 1 - 1 = n - 1 := by omega
        rw [harith] at h0
        simpa using h0.symm
      obtain ⟨d1, hd1, hc1t⟩ : ∃ d1, (s.take (n + 1))[n]? = some d1 ∧ c1 = tmplChar d1 := by
        have hge := pruneTemplate_getElem_ge (s.take (n + 1)) n (by omega)
        rw [hidx1] at hge
        rcases Option.map_eq_some'.mp hge.symm with ⟨d1, hd1, hmap⟩
        exact ⟨d1, hd1, hmap.symm⟩
      obtain ⟨d2, hd2, hc2t⟩ : ∃ d2, (s.take (n + 1))[n - 1]? = some d2 ∧ c2 = tmplChar d2 := by
        have hge := pruneTemplate_getElem_ge (s.take (n + 1)) (n - 1) (by omega)
        rw [hidx2] at hge
        rcases Option.map_eq_some'.mp hge.symm with ⟨d2, hd2, hmap⟩
        exact ⟨d2, hd2, hmap.symm⟩
      have hc1A : c1 = 'A' := by
        rw [hc1t]
        exact tmplChar_w_eq_A d1 (by rw [← hc1t]; exact hw1)
      have hc2A : c2 = 'A' := by
        rw [hc2t]
        exact tmplChar_w_eq_A d2 (by rw [← hc2t]; exact hw2)
      have hsp1 : isSpaceJS c1 = false := by
        rw [hc1A]
        decide
      have hsp2 : isSpaceJS c2 = false := by
        rw [hc2A]
        decide
      obtain ⟨k, hdt, hlensum, hcut0⟩ :=
        dropTrailingWordRun_else (pruneTemplate (s.take (n + 1))) c1 (c2 :: rest) hrev
          (by rw [hsp1]; simp)
      have hx1len : 2 ≤
          ((pruneTemplate (s.take (n + 1))).reverse.takeWhile (fun c => !(isSpaceJS c))).length := by
        rw [hrev, List.takeWhile_cons, if_pos (by rw [hsp1]; rfl),
          List.takeWhile_cons, if_pos (by rw [hsp2]; rfl)]
        simp only [List.length_cons]
        omega
      have hkn : k ≤ n := by
        rw [ht0len] at hlensum
        omega
      refine ⟨k, ?_, hkn, ?_⟩
      · simp only [pruneTmpl, if_pos hbr]
        rw [hdt, List.length_take]
        rw [ht0len] at hlensum ⊢
        omega
      · rcases hcut0 with h0 | ⟨c, hc, hcsp⟩
        · exact Or.inl h0
        · obtain ⟨c0, hc0, hnc⟩ := template_space_not_cased (s.take (n + 1)) k c hc hcsp
          right
          refine ⟨c0, ?_, hnc⟩
          rw [← List.getElem?_take_of_lt (show k < n + 1 by omega)]
          exact hc0
    · -- branch 2: drop the last template character and right-trim
      obtain ⟨k, hrt, hlensum, hcut0⟩ := rtrimJS_take (pruneTemplate (s.take (n + 1))).dropLast
      have hdll : (pruneTemplate (s.take (n + 1))).dropLast.length = n := by
        rw [List.length_dropLast, ht0len, Nat.add_sub_cancel]
      have hdlt : (pruneTemplate (s.take (n + 1))).dropLast =
          (pruneTemplate (s.take (n + 1))).take n := by
        rw [List.dropLast_eq_take, ht0len, Nat.add_sub_cancel]
      have hkn : k ≤ n := by omega
      refine ⟨k, ?_, hkn, ?_⟩
      · simp only [pruneTmpl, if_neg hbr]
        rw [hrt, List.length_take]
        omega
      · rcases hcut0 with h0 | hfull | ⟨c, hc, hcsp⟩
        · exact Or.inl h0
        · rw [hdll] at hfull
          by_cases hn0 : n = 0
          · left
            omega
          · right
            have hn1 : 1 ≤ n := by omega
            have hkeeple : pruneKeep (s.take (n + 1)) + 2 ≤ n + 1 := by
              rcases hkeep2 with h | h
              · exact h
              · omega
            -- the template's reverse has at least two characters
            rcases hrev : (pruneTemplate (s.take (n + 1))).reverse with _ | ⟨c1, _ | ⟨c2, rest⟩⟩
            · exfalso
              have := congrArg List.length hrev
              rw [List.length_reverse, ht0len] at this
              cases this
            · exfalso
              have := congrArg List.length hrev
              rw [List.length_reverse, ht0len] at this
              simp only [List.length_cons, List.length_nil] at this
              omega
            · have hidx1 : (pruneTemplate (s.take (n + 1)))[n]? = some c1 := by
                have h0 := List.getElem?_reverse (l := pruneTemplate (s.take (n + 1))) (i := 0)
                  (by rw [ht0len]; omega)
                rw [hrev, ht0len, List.getElem?_cons_zero] at h0
                have harith : n + 1 - 1 - 0 = n := by omega
                rw [harith] at h0
                exact h0.symm
              have hidx2 : (pruneTemplate (s.take (n + 1)))[n - 1]? = some c2 := by
                have h0 := List.getElem?_reverse (l := pruneTemplate (s.take (n + 1))) (i := 1)
                  (by rw [ht0len]; omega)
                rw [hrev, ht0len] at h0
                have harith : n + 1 - 1 - 1 = n - 1 := by omega
                rw [harith] at h0
                simpa using h0.symm
              -- rtrim removed nothing, so the last kept character is not a space
              have hxnil : ((pruneTemplate (s.take (n + 1))).dropLast.reverse.takeWhile
                  isSpaceJS) = [] := by
                apply List.length_eq_zero.mp
                omega
              rcases hdrev : (pruneTemplate (s.take (n + 1))).dropLast.reverse with _ | ⟨e, es⟩
              · exfalso
                have := congrArg List.length hdrev
                rw [List.length_reverse, hdll] at this
                simp only [List.length_nil] at this
                omega
              have hesp : isSpaceJS e = false :=
                takeWhile_nil_head isSpaceJS _ e es hdrev hxnil
              -- e is the template character at index n - 1
              have he1 : (pruneTemplate (s.take (n + 1))).dropLast[n - 1]? = some e := by
                have h0 := List.getElem?_reverse
                  (l := (pruneTemplate (s.take (n + 1))).dropLast) (i := 0)
                  (by rw [hdll]; omega)
                rw [hdrev, hdll, List.getElem?_cons_zero] at h0
                have harith : n - 1 - 0 = n - 1 := by omega
                rw [harith] at h0
                exact h0.symm
              have he2 : (pruneTemplate (s.take (n + 1)))[n - 1]? = some e := by
                rw [hdlt, List.getElem?_take_of_lt (show n - 1 < n by omega)] at he1
                exact he1
              have hec2 : e = c2 := by
                rw [he2] at hidx2
                exact Option.some.inj hidx2
              obtain ⟨d1, hd1, hc1t⟩ : ∃ d1, (s.take (n + 1))[n]? = some d1 ∧ c1 = tmplChar d1 := by
                have hge := pruneTemplate_getElem_ge (s.take (n + 1)) n (by omega)
                rw [hidx1] at hge
                rcases Option.map_eq_some'.mp hge.symm with ⟨d1, hd1, hmap⟩
                exact ⟨d1, hd1, hmap.symm⟩
              obtain ⟨d2, hd2, hc2t⟩ : ∃ d2, (s.take (n + 1))[n - 1]? = some d2 ∧
                  c2 = tmplChar d2 := by
                have hge := pruneTemplate_getElem_ge (s.take (n + 1)) (n - 1) (by omega)
                rw [hidx2] at hge
                rcases Option.map_eq_some'.mp hge.symm with ⟨d2, hd2, hmap⟩
                exact ⟨d2, hd2, hmap.symm⟩
              -- c2 is a non-space template character, hence 'A', hence a word character
              have hc2A : c2 = 'A' := by
                rcases tmplChar_cases d2 with hA | hSp
                · rw [hc2t, hA]
                · exfalso
                  rw [hc2t, hSp] at hec2
                  rw [hec2] at hesp
                  cases hesp
              have hw2 : isWChar c2 = true := by
                rw [hc2A]
                decide
              have hw1 : isWChar c1 = false := by
                rcases lastTwoAreW_false_or _ c1 c2 rest hrev hbr with h | h
                · exact h
                · rw [h] at hw2
                  cases hw2
              have hc1sp : c1 = ' ' := by
                rcases tmplChar_cases d1 with hA | hSp
                · exfalso
                  rw [hc1t, hA] at hw1
                  cases hw1
                · rw [hc1t, hSp]
              have hnotc : isCasedLetter d1 = false := by
                apply tmplChar_space_not_cased
                rw [← hc1t]
                exact hc1sp
              refine ⟨d1, ?_, hnotc⟩
              rw [hfull, ← List.getElem?_take_of_lt (show n < n + 1 by omega)]
              exact hd1
        · -- the cut character is a space in the template
          have hklt : k < n := by
            rcases List.getElem?_eq_some.mp hc with ⟨hlt2, _⟩
            rw [hdll] at hlt2
            exact hlt2
          have hct0 : (pruneTemplate (s.take (n + 1)))[k]? = some c := by
            rw [hdlt, List.getElem?_take_of_lt hklt] at hc
            exact hc
          obtain ⟨c0, hc0, hnc⟩ := template_space_not_cased (s.take (n + 1)) k c hct0 hcsp
          right
          refine ⟨c0, ?_, hnc⟩
          rw [← List.getElem?_take_of_lt (show k < n + 1 by omega)]
          exact hc0
  obtain ⟨k, hk, hkn, hcut⟩ := hky
  refine ⟨fun h => absurd h hfits, ?_⟩
  by_cases hguard : s.length < (pruneTmpl s n).length + 3
  · left
    simp [usPrune, hfits, hguard]
  · right
    refine ⟨k, hkn, ?_, hcut⟩
    rw [← hk]
    simp [usPrune, hfits, hguard]

/-- C6 counterexample: with `pruneLength = 4`, the excerpt of the document
whose joined text is the single word `ab1cd` is `ab...` — five characters,
which exceeds `pruneLength`, and the cut falls in the middle of the word
(every character of the joined text is a word character). -/
theorem excerpt_prune_cex :
    excerptResolve digitWordDoc 4 = ['a', 'b', '.', '.', '.'] ∧
    ¬ (excerptResolve digitWordDoc 4).length ≤ 4 ∧
    joinSp (visitTextValues digitWordDoc) = ['a', 'b', '1', 'c', 'd'] ∧
    (joinSp (visitTextValues digitWordDoc)).all isWChar = true := by
  refine ⟨rfl, by decide, rfl, rfl⟩

/-- C6 amended: the excerpt is the space-joined list of text leaves in
document order, pruned by the library's template heuristic: a string that
fits within `pruneLength` is returned unchanged; otherwise the result is
either the whole string (when pruning would not shorten it) or at most
`pruneLength` leading source characters with the three-character indicator
appended (so the result may exceed `pruneLength` by up to three characters),
and the cut position never carries a letter — though it may split an
alphanumeric word, since digits and underscores are not letters for the
template. -/
theorem excerpt_prune_amended (ast : MdNode) (n : Nat) :
    ((joinSp (visitTextValues ast)).length ≤ n →
      excerptResolve ast n = joinSp (visitTextValues ast)) ∧
    (excerptResolve ast n = joinSp (visitTextValues ast) ∨
      ∃ k, k ≤ n ∧
        excerptResolve ast n = (joinSp (visitTextValues ast)).take k ++ ['.', '.', '.'] ∧
        (k = 0 ∨ ∃ c, (joinSp (visitTextValues ast))[k]? = some c ∧
          isCasedLetter c = false)) :=
  usPrune_spec (joinSp (visitTextValues ast)) n

/-- Witness for C6's amended statement: a short document is returned whole,
with the leaves joined by a single space. -/
theorem excerpt_prune_amended_witness :
    excerptResolve shortDoc 140 = ['H', 'i', ' ', 'y', 'o', 'u'] :=
  (excerpt_prune_amended shortDoc 140).1 (by decide)
